import Mathlib

/-!
Verification of `utils.py` of arxiv-sanity-preserver.

The file shallowly embeds:
  * the atomic-write context managers `_tempfile` (lines 66-90) and
    `open_atomic` (lines 93-117), over a finite-map model of the filesystem;
  * the configuration loader `ConfigFromFile` (lines 11-61), over a parsed
    representation of the config file;
  * the arxiv-id helpers `strip_version` (lines 127-130) and `isvalidid`
    (lines 133-134).
-/

set_option autoImplicit false

/-! ### Association-list maps (shared substrate for filesystem and config) -/

/-- First value stored under key `p`, or `none`. -/
def assocGet {α : Type} : List (String × α) → String → Option α
  | [], _ => none
  | (k, v) :: rest, p => if k = p then some v else assocGet rest p

/-- Remove every entry stored under key `p`. -/
def assocDel {α : Type} : List (String × α) → String → List (String × α)
  | [], _ => []
  | (k, v) :: rest, p => if k = p then assocDel rest p else (k, v) :: assocDel rest p

theorem assocGet_nil {α : Type} (p : String) : assocGet ([] : List (String × α)) p = none := rfl

theorem assocGet_cons {α : Type} (k : String) (v : α) (rest : List (String × α)) (p : String) :
    assocGet ((k, v) :: rest) p = if k = p then some v else assocGet rest p := rfl

theorem assocGet_del {α : Type} (l : List (String × α)) (p q : String) :
    assocGet (assocDel l p) q = if q = p then none else assocGet l q := by
  induction l with
  | nil => simp [assocDel, assocGet_nil]
  | cons kv rest ih =>
    obtain ⟨k, v⟩ := kv
    by_cases hk : k = p
    · by_cases hq : q = p
      · simp only [assocDel, if_pos hk, ih, if_pos hq]
      · have hkq : k ≠ q := fun h => hq (h ▸ hk)
        simp only [assocDel, if_pos hk, ih, if_neg hq, assocGet_cons, if_neg hkq]
    · by_cases hkq : k = q
      · by_cases hq : q = p
        · exact absurd (hkq.trans hq) hk
        · simp [assocDel, hk, assocGet_cons, hkq, hq]
      · simp [assocDel, hk, assocGet_cons, hkq, ih]

/-! ### Filesystem model for the atomic-write context managers -/

/-- A filesystem: a finite map from paths to file contents (bytes as `Nat`s). -/
abbrev FS := List (String × List Nat)

/-- An `OSError` as raised by `os.remove`; only the `errno` field matters here. -/
structure OSError where
  errno : Nat
deriving DecidableEq

/-- Errors that can escape the `open_atomic` scope. -/
inductive Err where
  /-- an `OSError` escaping the cleanup in `_tempfile` (lines 84-90) -/
  | osErr : OSError → Err
  /-- an error raised by the caller's body while using the yielded handle -/
  | callerErr : Nat → Err
  /-- a Python name-lookup failure, e.g. the unbound name `file` on line 116 -/
  | nameError : String → Err
deriving DecidableEq

/-- Model of `os.remove(name)`: deletes the file, or raises `OSError` with
`errno == 2` (`ENOENT`) when the path does not exist. -/
def osRemove (fs : FS) (p : String) : Except OSError FS :=
  match assocGet fs p with
  | some _ => .ok (assocDel fs p)
  | none => .error ⟨2⟩

/-- The `except OSError` handler of `_tempfile`, lines 86-90: an `errno == 2`
error from the cleanup `os.remove` is swallowed (the filesystem is whatever it
was), any other error re-raises. -/
def cleanupHandle (fs : FS) (r : Except OSError FS) : Except OSError FS :=
  match r with
  | .ok fs2 => .ok fs2
  | .error e => if e.errno = 2 then .ok fs else .error e

/-- The `finally` block of `_tempfile`, lines 83-90: `try: os.remove(name)`
guarded by the `errno == 2` handler. -/
def tempfileCleanup (fs : FS) (p : String) : Except OSError FS :=
  cleanupHandle fs (osRemove fs p)

/-- Model of `open_atomic(filepath, 'wb', fsync=fsync)` (lines 93-117), with
`_tempfile` (lines 66-90) inlined at its `with` statement.

`tmppath` is the fresh name chosen by `tempfile.mkstemp`; the caller's use of
the yielded handle is `body`: either the bytes it has written to the handle on
normal return, or the error it raises.  Returns the outcome (normal return or
propagated error) together with the final filesystem.

Steps, in source order:
  * `fd, name = tempfile.mkstemp(dir=os.path.dirname(filepath)); os.close(fd)`
    creates the empty temporary file (lines 79-80);
  * `with open(tmppath, *args, **kwargs) as f:` (write mode) truncates it;
  * `yield f` runs the body (line 113); on error the `if fsync` block and the
    rename are skipped and the error unwinds into `_tempfile`'s `finally`;
  * on normal return with `fsync` set, line 116 evaluates
    `os.fsync(file.fileno())` where `file` is an unbound name, raising a
    `NameError` (the intended expression was `f.fileno()`), so the rename is
    skipped and the error unwinds into the `finally`;
  * otherwise `os.rename(tmppath, filepath)` (line 117) moves the temporary
    file onto the destination, then the `finally` block runs `os.remove` on
    the already-renamed temporary path (swallowing the `ENOENT`). -/
def open_atomic_run (fs : FS) (filepath tmppath : String) (fsync : Bool)
    (body : Except Err (List Nat)) : Except Err Unit × FS :=
  let fs1 : FS := (tmppath, []) :: fs
  match body with
  | .error e =>
    match tempfileCleanup fs1 tmppath with
    | .ok fs2 => (.error e, fs2)
    | .error ce => (.error (.osErr ce), fs1)
  | .ok bytes =>
    let fs2 : FS := (tmppath, bytes) :: fs1
    if fsync then
      match tempfileCleanup fs2 tmppath with
      | .ok fs3 => (.error (.nameError "file"), fs3)
      | .error ce => (.error (.osErr ce), fs2)
    else
      let fs3 : FS := (filepath, bytes) :: assocDel fs2 tmppath
      match tempfileCleanup fs3 tmppath with
      | .ok fs4 => (.ok (), fs4)
      | .error ce => (.error (.osErr ce), fs3)

theorem assocDel_cons_self {α : Type} (k : String) (v : α) (rest : List (String × α)) :
    assocDel ((k, v) :: rest) k = assocDel rest k := by
  simp [assocDel]

/-- Evaluation of `open_atomic_run` when the body raises. -/
theorem open_atomic_run_error (fs : FS) (filepath tmppath : String) (fsync : Bool) (e : Err) :
    open_atomic_run fs filepath tmppath fsync (.error e) = (.error e, assocDel fs tmppath) := by
  simp [open_atomic_run, tempfileCleanup, osRemove, cleanupHandle, assocGet_cons,
    assocDel_cons_self]

/-- Evaluation of `open_atomic_run` when the body returns normally and `fsync`
is set: line 116 raises on the unbound name `file`. -/
theorem open_atomic_run_fsync (fs : FS) (filepath tmppath : String) (B : List Nat) :
    open_atomic_run fs filepath tmppath true (.ok B) =
      (.error (.nameError "file"), assocDel fs tmppath) := by
  simp [open_atomic_run, tempfileCleanup, osRemove, cleanupHandle, assocGet_cons,
    assocDel_cons_self]

/-- Evaluation of `open_atomic_run` when the body returns normally and `fsync`
is not set: the rename happens and the cleanup's `ENOENT` is swallowed. -/
theorem open_atomic_run_ok (fs : FS) (filepath tmppath : String) (B : List Nat)
    (hne : tmppath ≠ filepath) :
    open_atomic_run fs filepath tmppath false (.ok B) =
      (.ok (), (filepath, B) :: assocDel fs tmppath) := by
  have hfp : filepath ≠ tmppath := fun h => hne h.symm
  simp [open_atomic_run, tempfileCleanup, osRemove, cleanupHandle, assocGet_cons,
    assocDel_cons_self, assocGet_del, hfp]

/-- C1: if the caller's body raises an error while using the handle yielded by
`open_atomic`, the error propagates to the caller, the rename is skipped, and
the destination is byte-identical to its pre-call state (or absent if it did
not exist before); the temporary file is removed. -/
theorem open_atomic_body_error_spec (fs : FS) (filepath tmppath : String) (fsync : Bool)
    (e : Err) (hfresh : assocGet fs tmppath = none) :
    (open_atomic_run fs filepath tmppath fsync (.error e)).1 = .error e ∧
    assocGet (open_atomic_run fs filepath tmppath fsync (.error e)).2 filepath =
      assocGet fs filepath ∧
    assocGet (open_atomic_run fs filepath tmppath fsync (.error e)).2 tmppath = none := by
  rw [open_atomic_run_error]
  refine ⟨rfl, ?_, ?_⟩
  · rw [assocGet_del]
    by_cases h : filepath = tmppath
    · rw [if_pos h, h, hfresh]
    · rw [if_neg h]
  · rw [assocGet_del, if_pos rfl]

theorem open_atomic_body_error_spec_witness :
    assocGet ([("d/out", [7])] : FS) "d/tmp0" = none ∧
    ((open_atomic_run [("d/out", [7])] "d/out" "d/tmp0" false (.error (.callerErr 1))).1 =
        .error (.callerErr 1) ∧
      assocGet (open_atomic_run [("d/out", [7])] "d/out" "d/tmp0" false
          (.error (.callerErr 1))).2 "d/out" = assocGet ([("d/out", [7])] : FS) "d/out" ∧
      assocGet (open_atomic_run [("d/out", [7])] "d/out" "d/tmp0" false
          (.error (.callerErr 1))).2 "d/tmp0" = none) :=
  ⟨by decide, open_atomic_body_error_spec [("d/out", [7])] "d/out" "d/tmp0" false
    (.callerErr 1) (by decide)⟩

/-- C2: after `open_atomic(path, 'wb')` completes normally with the caller
having written exactly `B` to the yielded handle, reading the (previously
absent) destination path back yields exactly `B`. -/
theorem open_atomic_write_readback (fs : FS) (filepath tmppath : String) (B : List Nat)
    (hfresh : assocGet fs tmppath = none) (hdest : assocGet fs filepath = none)
    (hne : tmppath ≠ filepath) :
    (open_atomic_run fs filepath tmppath false (.ok B)).1 = .ok () ∧
    assocGet (open_atomic_run fs filepath tmppath false (.ok B)).2 filepath = some B := by
  rw [open_atomic_run_ok fs filepath tmppath B hne]
  exact ⟨rfl, by rw [assocGet_cons, if_pos rfl]⟩

theorem open_atomic_write_readback_witness :
    assocGet ([] : FS) "d/tmp0" = none ∧ assocGet ([] : FS) "d/out" = none ∧
    "d/tmp0" ≠ "d/out" ∧
    ((open_atomic_run [] "d/out" "d/tmp0" false (.ok [3, 1, 4])).1 = .ok () ∧
      assocGet (open_atomic_run [] "d/out" "d/tmp0" false (.ok [3, 1, 4])).2 "d/out" =
        some [3, 1, 4]) :=
  ⟨rfl, rfl, by decide,
    open_atomic_write_readback [] "d/out" "d/tmp0" [3, 1, 4] rfl rfl (by decide)⟩

/-- C3 (bug exhibit): with `fsync=True` and a normally-returning body, line 116
evaluates `os.fsync(file.fileno())` on the unbound name `file`, so the scope
raises a `NameError` instead of flushing and renaming: the destination is left
untouched and the temporary file is removed. -/
theorem open_atomic_fsync_name_error (fs : FS) (filepath tmppath : String) (B : List Nat)
    (hfresh : assocGet fs tmppath = none) :
    (open_atomic_run fs filepath tmppath true (.ok B)).1 = .error (.nameError "file") ∧
    assocGet (open_atomic_run fs filepath tmppath true (.ok B)).2 filepath =
      assocGet fs filepath ∧
    assocGet (open_atomic_run fs filepath tmppath true (.ok B)).2 tmppath = none := by
  rw [open_atomic_run_fsync]
  refine ⟨rfl, ?_, ?_⟩
  · rw [assocGet_del]
    by_cases h : filepath = tmppath
    · rw [if_pos h, h, hfresh]
    · rw [if_neg h]
  · rw [assocGet_del, if_pos rfl]

theorem open_atomic_fsync_name_error_witness :
    assocGet ([] : FS) "d/tmp0" = none ∧
    ((open_atomic_run [] "d/out" "d/tmp0" true (.ok [9])).1 = .error (.nameError "file") ∧
      assocGet (open_atomic_run [] "d/out" "d/tmp0" true (.ok [9])).2 "d/out" =
        assocGet ([] : FS) "d/out" ∧
      assocGet (open_atomic_run [] "d/out" "d/tmp0" true (.ok [9])).2 "d/tmp0" = none) :=
  ⟨rfl, open_atomic_fsync_name_error [] "d/out" "d/tmp0" [9] rfl⟩

/-- C8: on every exit path of the atomic-write scope the temporary file is
deleted if it still exists; an `errno == 2` (missing-file) error raised by the
cleanup `os.remove` is swallowed, and any other cleanup error propagates. -/
theorem tempfile_cleanup_spec :
    (∀ (fs : FS) (filepath tmppath : String) (fsync : Bool) (body : Except Err (List Nat)),
      tmppath ≠ filepath →
      assocGet (open_atomic_run fs filepath tmppath fsync body).2 tmppath = none) ∧
    (∀ (fs : FS) (e : OSError), e.errno = 2 → cleanupHandle fs (.error e) = .ok fs) ∧
    (∀ (fs : FS) (e : OSError), e.errno ≠ 2 → cleanupHandle fs (.error e) = .error e) := by
  refine ⟨?_, ?_, ?_⟩
  · intro fs filepath tmppath fsync body hne
    have hfp : filepath ≠ tmppath := fun h => hne h.symm
    match body with
    | .error e =>
      rw [open_atomic_run_error, assocGet_del, if_pos rfl]
    | .ok B =>
      match fsync with
      | true => rw [open_atomic_run_fsync, assocGet_del, if_pos rfl]
      | false =>
        rw [open_atomic_run_ok fs filepath tmppath B hne, assocGet_cons, if_neg hfp,
          assocGet_del, if_pos rfl]
  · intro fs e h
    simp [cleanupHandle, h]
  · intro fs e h
    simp [cleanupHandle, h]

theorem tempfile_cleanup_spec_witness :
    ("d/tmp0" : String) ≠ "d/out" ∧
    assocGet (open_atomic_run [("d/out", [7])] "d/out" "d/tmp0" false (.ok [1])).2 "d/tmp0" =
      none ∧
    ((⟨2⟩ : OSError).errno = 2 ∧
      cleanupHandle [("d/out", [7])] (.error ⟨2⟩) = .ok [("d/out", [7])]) ∧
    ((⟨13⟩ : OSError).errno ≠ 2 ∧
      cleanupHandle [("d/out", [7])] (.error ⟨13⟩) = .error ⟨13⟩) :=
  ⟨by decide,
    tempfile_cleanup_spec.1 [("d/out", [7])] "d/out" "d/tmp0" false (.ok [1]) (by decide),
    ⟨rfl, tempfile_cleanup_spec.2.1 [("d/out", [7])] ⟨2⟩ rfl⟩,
    ⟨by decide, tempfile_cleanup_spec.2.2 [("d/out", [7])] ⟨13⟩ (by decide)⟩⟩

/-! ### Configuration loader (`ConfigFromFile`, lines 11-61) -/

/-- A parsed config file: sections mapping option names to string values. -/
abbrev Cfg := List (String × List (String × String))

/-- Errors raised by the loader: `ValueError` for a missing section (lines
33-35) and `configparser.NoOptionError` for a missing option (line 57). -/
inductive CfgErr where
  | noSection : String → CfgErr
  | noOption : String → CfgErr
deriving DecidableEq

/-- The 15 required option names of `_populate_vars`, lines 38-53. -/
def vars_list : List String :=
  ["data_root", "db_path", "pdf_dir", "txt_dir", "thumbs_dir", "tfidf_path", "meta_path",
   "sim_path", "user_sim_path", "db_serve_path", "database_path", "serve_cache_path",
   "beg_for_hosting_money", "banned_path", "tmp_dir"]

/-- Model of `parser.has_section(s)`. -/
def hasSection (cfg : Cfg) (s : String) : Bool :=
  (assocGet cfg s).isSome

/-- Model of `parser.get(sec, opt)`: the stored string, or the corresponding
`configparser` error. -/
def parserGet (cfg : Cfg) (sec opt : String) : Except CfgErr String :=
  match assocGet cfg sec with
  | none => .error (.noSection sec)
  | some opts =>
    match assocGet opts opt with
    | none => .error (.noOption opt)
    | some v => .ok v

/-- The `for var in vars_list` loop of `_populate_vars` (lines 56-58): each
`parser.get('arxiv-sanity', var)` result is stored as the attribute `var`; the
first `configparser` error aborts the construction. -/
def populate_loop (cfg : Cfg) : List String → Except CfgErr (List (String × String))
  | [] => .ok []
  | v :: vs =>
    match parserGet cfg "arxiv-sanity" v with
    | .error e => .error e
    | .ok val =>
      match populate_loop cfg vs with
      | .error e => .error e
      | .ok rest => .ok ((v, val) :: rest)

/-- `_check_config` (lines 32-35): `ValueError` unless the section exists. -/
def check_config (cfg : Cfg) : Except CfgErr Unit :=
  if hasSection cfg "arxiv-sanity" then .ok () else .error (.noSection "arxiv-sanity")

/-- `ConfigFromFile.__init__` after `parser.read`: `_check_config` then
`_populate_vars`; the result is the attribute map of the constructed object. -/
def configFromFile (cfg : Cfg) : Except CfgErr (List (String × String)) :=
  match check_config cfg with
  | .error e => .error e
  | .ok _ => populate_loop cfg vars_list

/-- Model of `parser.read(config_file)` (line 26): a missing file is silently
ignored, leaving the parser empty; `disk` maps file paths to their parses. -/
def parserRead (disk : List (String × Cfg)) (path : String) : Cfg :=
  match assocGet disk path with
  | some cfg => cfg
  | none => []

/-- `ConfigFromFile.__init__` (lines 22-30) from a file path. -/
def configInit (disk : List (String × Cfg)) (path : String) :
    Except CfgErr (List (String × String)) :=
  configFromFile (parserRead disk path)

theorem populate_loop_ok (cfg : Cfg) (opts : List (String × String))
    (hsec : assocGet cfg "arxiv-sanity" = some opts) :
    ∀ l : List String, (∀ v ∈ l, (assocGet opts v).isSome = true) →
      ∃ attrs, populate_loop cfg l = .ok attrs ∧
        ∀ v val, v ∈ l → assocGet opts v = some val → assocGet attrs v = some val := by
  intro l
  induction l with
  | nil => exact fun _ => ⟨[], rfl, fun v val hv _ => absurd hv (List.not_mem_nil v)⟩
  | cons x xs ih =>
    intro hall
    obtain ⟨vx, hvx⟩ := Option.isSome_iff_exists.mp (hall x (List.mem_cons_self x xs))
    obtain ⟨rest, hrest, hlook⟩ := ih (fun v hv => hall v (List.mem_cons_of_mem x hv))
    refine ⟨(x, vx) :: rest, ?_, ?_⟩
    · simp only [populate_loop, parserGet, hsec, hvx, hrest]
    · intro v val hv hval
      rw [assocGet_cons]
      by_cases hxv : x = v
      · subst hxv
        rw [hvx] at hval
        rw [if_pos rfl]
        exact congrArg some (Option.some.inj hval).symm ▸ rfl
      · rw [if_neg hxv]
        have : v ∈ xs := by
          rcases List.mem_cons.mp hv with h | h
          · exact absurd h.symm hxv
          · exact h
        exact hlook v val this hval

theorem populate_loop_err (cfg : Cfg) (opts : List (String × String))
    (hsec : assocGet cfg "arxiv-sanity" = some opts) :
    ∀ l : List String, (∃ v, v ∈ l ∧ assocGet opts v = none) →
      ∃ w, populate_loop cfg l = .error (.noOption w) := by
  intro l
  induction l with
  | nil => rintro ⟨v, hv, _⟩; exact absurd hv (List.not_mem_nil v)
  | cons x xs ih =>
    rintro ⟨v, hv, hnone⟩
    by_cases hx : assocGet opts x = none
    · exact ⟨x, by simp only [populate_loop, parserGet, hsec, hx]⟩
    · obtain ⟨vx, hvx⟩ := Option.ne_none_iff_exists'.mp hx
      have hvxs : v ∈ xs := by
        rcases List.mem_cons.mp hv with h | h
        · subst h; exact absurd hnone hx
        · exact h
      obtain ⟨w, hw⟩ := ih ⟨v, hvxs, hnone⟩
      exact ⟨w, by simp only [populate_loop, parserGet, hsec, hvx, hw]⟩

/-- C4: when the parsed file has the `[arxiv-sanity]` section with all 15
required keys, construction succeeds and every attribute equals the string
written in the file for its key, verbatim. -/
theorem config_populate_verbatim (cfg : Cfg) (opts : List (String × String))
    (hsec : assocGet cfg "arxiv-sanity" = some opts)
    (hall : ∀ v ∈ vars_list, (assocGet opts v).isSome = true) :
    ∃ attrs, configFromFile cfg = .ok attrs ∧
      ∀ v val, v ∈ vars_list → assocGet opts v = some val → assocGet attrs v = some val := by
  obtain ⟨attrs, hattrs, hlook⟩ := populate_loop_ok cfg opts hsec vars_list hall
  refine ⟨attrs, ?_, hlook⟩
  simp only [configFromFile, check_config, hasSection, hsec, Option.isSome_some, if_pos,
    hattrs]

def sample_opts : List (String × String) :=
  [("data_root", "data"), ("db_path", "db.p"), ("pdf_dir", "data/pdf"),
   ("txt_dir", "data/txt"), ("thumbs_dir", "static/thumbs"), ("tfidf_path", "tfidf.p"),
   ("meta_path", "tfidf_meta.p"), ("sim_path", "sim_dict.p"), ("user_sim_path", "user_sim.p"),
   ("db_serve_path", "db2.p"), ("database_path", "as.db"), ("serve_cache_path", "serve_cache.p"),
   ("beg_for_hosting_money", "1"), ("banned_path", "banned.txt"), ("tmp_dir", "tmp")]

theorem config_populate_verbatim_witness :
    ∃ attrs, configFromFile [("arxiv-sanity", sample_opts)] = .ok attrs ∧
      ∀ v val, v ∈ vars_list → assocGet sample_opts v = some val →
        assocGet attrs v = some val :=
  config_populate_verbatim [("arxiv-sanity", sample_opts)] sample_opts rfl (by decide)

/-- C5: loading raises the missing-section `ValueError` when the parsed file
has no `[arxiv-sanity]` section; raises a `NoOptionError` when the section is
present but some required key is absent; and succeeds when the section is
present with every required key. -/
theorem config_load_error_cases (cfg : Cfg) :
    (hasSection cfg "arxiv-sanity" = false →
      configFromFile cfg = .error (.noSection "arxiv-sanity")) ∧
    (∀ opts, assocGet cfg "arxiv-sanity" = some opts →
      (∃ v, v ∈ vars_list ∧ assocGet opts v = none) →
      ∃ w, configFromFile cfg = .error (.noOption w)) ∧
    (∀ opts, assocGet cfg "arxiv-sanity" = some opts →
      (∀ v ∈ vars_list, (assocGet opts v).isSome = true) →
      ∃ attrs, configFromFile cfg = .ok attrs) := by
  refine ⟨?_, ?_, ?_⟩
  · intro hno
    simp [configFromFile, check_config, hno]
  · intro opts hsec hmiss
    obtain ⟨w, hw⟩ := populate_loop_err cfg opts hsec vars_list hmiss
    refine ⟨w, ?_⟩
    simp only [configFromFile, check_config, hasSection, hsec, Option.isSome_some, if_pos, hw]
  · intro opts hsec hall
    obtain ⟨attrs, hattrs, _⟩ := populate_loop_ok cfg opts hsec vars_list hall
    refine ⟨attrs, ?_⟩
    simp only [configFromFile, check_config, hasSection, hsec, Option.isSome_some, if_pos,
      hattrs]

theorem config_load_error_cases_witness :
    (hasSection [("other", [])] "arxiv-sanity" = false ∧
      configFromFile [("other", [])] = .error (.noSection "arxiv-sanity")) ∧
    (∃ w, configFromFile [("arxiv-sanity", [("db_path", "db.p")])] =
      .error (.noOption w)) ∧
    (∃ attrs, configFromFile [("arxiv-sanity", sample_opts)] = .ok attrs) :=
  ⟨⟨rfl, (config_load_error_cases [("other", [])]).1 rfl⟩,
    (config_load_error_cases [("arxiv-sanity", [("db_path", "db.p")])]).2.1
      [("db_path", "db.p")] rfl ⟨"data_root", by decide, rfl⟩,
    (config_load_error_cases [("arxiv-sanity", sample_opts)]).2.2 sample_opts rfl (by decide)⟩

/-- C9: when the given path names no existing file, `parser.read` silently
leaves the parser empty, so construction fails with the very missing-section
`ValueError`, not an I/O error. -/
theorem config_missing_file_spec (disk : List (String × Cfg)) (path : String)
    (habsent : assocGet disk path = none) :
    configInit disk path = .error (.noSection "arxiv-sanity") ∧
    configInit disk path = configFromFile [] := by
  have hread : parserRead disk path = [] := by simp only [parserRead, habsent]
  constructor
  · simp only [configInit, hread]
    rfl
  · simp only [configInit, hread]

theorem config_missing_file_spec_witness :
    assocGet ([] : List (String × Cfg)) "arxiv-sanity.cfg" = none ∧
    (configInit [] "arxiv-sanity.cfg" = .error (.noSection "arxiv-sanity") ∧
      configInit [] "arxiv-sanity.cfg" = configFromFile []) :=
  ⟨rfl, config_missing_file_spec [] "arxiv-sanity.cfg" rfl⟩

/-! ### Arxiv id helpers (`strip_version` lines 127-130, `isvalidid` lines 133-134) -/

/-- Model of `strip_version(idstr)`: `idstr.split('v')[0]`, i.e. the segment
of the string before the first `'v'` (the whole string when `'v'` is absent). -/
def strip_version (idstr : String) : String :=
  ⟨idstr.data.takeWhile (fun c => c != 'v')⟩

/-- The character class `\d`, taken here as the ASCII decimal digits. -/
def isDig (c : Char) : Bool :=
  c.isDigit

/-- The part of the pattern after `(v` : either nothing, or one or more digits
followed by the end of the match. -/
def versionTail : List Char → Bool
  | [] => true
  | c :: r4 => (c == 'v') && !(r4.takeWhile isDig).isEmpty && (r4.dropWhile isDig).isEmpty

/-- The part of the pattern after `\d+` : a literal dot, one or more digits,
and an optional version suffix. -/
def dotPart : List Char → Bool
  | [] => false
  | c :: r2 => (c == '.') && !(r2.takeWhile isDig).isEmpty && versionTail (r2.dropWhile isDig)

/-- Whether `cs` is matched in full by `\d+\.\d+(v\d+)?` (greedy scanning is
exact here because `.`, `v` and the end are not digits). -/
def validBody (cs : List Char) : Bool :=
  !(cs.takeWhile isDig).isEmpty && dotPart (cs.dropWhile isDig)

/-- Model of `isvalidid(pid)`: `re.match('^\d+\.\d+(v\d+)?$', pid)` is truthy.
Python's `$` matches at the end of the string or just before a newline at the
end of the string, so a single trailing `'\n'` is also accepted. -/
def isvalidid (pid : String) : Bool :=
  validBody pid.data ||
    ((pid.data.getLast? == some '\n') && validBody pid.data.dropLast)

/-- A nonempty list of decimal digits (`\d+` in the spec's words). -/
def digitsNE (l : List Char) : Prop :=
  l ≠ [] ∧ ∀ c ∈ l, c.isDigit = true

/-- Modelled from the spec: the shape `one or more digits, a literal dot, one
or more digits, optionally a literal v followed by one or more digits`, with
nothing after that up to the end of the list. -/
def specShape (cs : List Char) : Prop :=
  ∃ d1 d2, digitsNE d1 ∧ digitsNE d2 ∧
    (cs = d1 ++ '.' :: d2 ∨ ∃ d3, digitsNE d3 ∧ cs = d1 ++ '.' :: (d2 ++ 'v' :: d3))

theorem takeWhile_all {p : Char → Bool} {l : List Char} (h : ∀ c ∈ l, p c = true) :
    l.takeWhile p = l := by
  induction l with
  | nil => rfl
  | cons x xs ih =>
    rw [List.takeWhile_cons, h x (List.mem_cons_self x xs)]
    exact congrArg (x :: ·) (ih fun c hc => h c (List.mem_cons_of_mem x hc))

theorem dropWhile_all {p : Char → Bool} {l : List Char} (h : ∀ c ∈ l, p c = true) :
    l.dropWhile p = [] := by
  induction l with
  | nil => rfl
  | cons x xs ih =>
    rw [List.dropWhile_cons, h x (List.mem_cons_self x xs)]
    exact ih fun c hc => h c (List.mem_cons_of_mem x hc)

theorem takeWhile_middle {p : Char → Bool} {l1 l2 : List Char} {c : Char}
    (h : ∀ x ∈ l1, p x = true) (hc : p c = false) :
    (l1 ++ c :: l2).takeWhile p = l1 := by
  induction l1 with
  | nil => simp [List.takeWhile_cons, hc]
  | cons x xs ih =>
    rw [List.cons_append, List.takeWhile_cons, h x (List.mem_cons_self x xs)]
    exact congrArg (x :: ·) (ih fun y hy => h y (List.mem_cons_of_mem x hy))

theorem dropWhile_middle {p : Char → Bool} {l1 l2 : List Char} {c : Char}
    (h : ∀ x ∈ l1, p x = true) (hc : p c = false) :
    (l1 ++ c :: l2).dropWhile p = c :: l2 := by
  induction l1 with
  | nil => simp [List.dropWhile_cons, hc]
  | cons x xs ih =>
    rw [List.cons_append, List.dropWhile_cons, h x (List.mem_cons_self x xs)]
    exact ih fun y hy => h y (List.mem_cons_of_mem x hy)

theorem validBody_iff (cs : List Char) : validBody cs = true ↔ specShape cs := by
  have hdot : isDig '.' = false := by decide
  have hv : isDig 'v' = false := by decide
  constructor
  · intro h
    rw [validBody, Bool.and_eq_true] at h
    obtain ⟨h1, h2⟩ := h
    rw [Bool.not_eq_true', List.isEmpty_eq_false] at h1
    have hd1dig : ∀ c ∈ cs.takeWhile isDig, c.isDigit = true :=
      fun c hc => List.mem_takeWhile_imp hc
    have hsplit := List.takeWhile_append_dropWhile isDig cs
    rcases hdrop : cs.dropWhile isDig with _ | ⟨c, r2⟩
    · rw [hdrop] at h2
      exact absurd h2 (by simp [dotPart])
    · rw [hdrop] at h2 hsplit
      simp only [dotPart, Bool.and_eq_true] at h2
      obtain ⟨⟨hc, hd2⟩, hvt⟩ := h2
      have hc' : c = '.' := eq_of_beq hc
      subst hc'
      rw [Bool.not_eq_true', List.isEmpty_eq_false] at hd2
      have hd2dig : ∀ x ∈ r2.takeWhile isDig, x.isDigit = true :=
        fun x hx => List.mem_takeWhile_imp hx
      have hsplit2 := List.takeWhile_append_dropWhile isDig r2
      obtain ⟨r3, hdrop2⟩ : ∃ r3, r2.dropWhile isDig = r3 := ⟨_, rfl⟩
      rw [hdrop2] at hvt hsplit2
      rcases r3 with _ | ⟨c2, r4⟩
      · rw [List.append_nil] at hsplit2
        refine ⟨cs.takeWhile isDig, r2.takeWhile isDig, ⟨h1, hd1dig⟩, ⟨hd2, hd2dig⟩,
          Or.inl ?_⟩
        rw [hsplit2]
        exact hsplit.symm
      · simp only [versionTail, Bool.and_eq_true] at hvt
        obtain ⟨⟨hc2, hd3⟩, hr5⟩ := hvt
        have hc2' : c2 = 'v' := eq_of_beq hc2
        subst hc2'
        rw [Bool.not_eq_true', List.isEmpty_eq_false] at hd3
        have hr5' : r4.dropWhile isDig = [] := List.isEmpty_iff.mp hr5
        have hr4 : r4.takeWhile isDig = r4 := by
          have h := List.takeWhile_append_dropWhile isDig r4
          rw [hr5', List.append_nil] at h
          exact h
        have hd3dig : ∀ x ∈ r4, x.isDigit = true := by
          intro x hx
          rw [← hr4] at hx
          exact List.mem_takeWhile_imp hx
        have hd3ne : r4 ≠ [] := by
          rw [← hr4]
          exact hd3
        refine ⟨cs.takeWhile isDig, r2.takeWhile isDig, ⟨h1, hd1dig⟩, ⟨hd2, hd2dig⟩,
          Or.inr ⟨r4, ⟨hd3ne, hd3dig⟩, ?_⟩⟩
        rw [hsplit2]
        exact hsplit.symm
  · rintro ⟨d1, d2, ⟨h1ne, h1d⟩, ⟨h2ne, h2d⟩, hcase⟩
    have h1d' : ∀ c ∈ d1, isDig c = true := h1d
    have h2d' : ∀ c ∈ d2, isDig c = true := h2d
    rcases hcase with hcs | ⟨d3, ⟨h3ne, h3d⟩, hcs⟩
    · subst hcs
      rw [validBody, takeWhile_middle h1d' hdot, dropWhile_middle h1d' hdot]
      simp only [dotPart]
      rw [takeWhile_all h2d', dropWhile_all h2d']
      simp [versionTail, List.isEmpty_eq_false.mpr h1ne, List.isEmpty_eq_false.mpr h2ne]
    · have h3d' : ∀ c ∈ d3, isDig c = true := h3d
      subst hcs
      rw [validBody, takeWhile_middle h1d' hdot, dropWhile_middle h1d' hdot]
      simp only [dotPart]
      rw [takeWhile_middle h2d' hv, dropWhile_middle h2d' hv]
      simp only [versionTail]
      rw [takeWhile_all h3d', dropWhile_all h3d']
      simp [List.isEmpty_eq_false.mpr h1ne, List.isEmpty_eq_false.mpr h2ne,
        List.isEmpty_eq_false.mpr h3ne]

theorem isvalidid_eq_true_iff (s : String) :
    isvalidid s = true ↔
      (specShape s.data ∨ ∃ cs, s.data = cs ++ ['\n'] ∧ specShape cs) := by
  rw [isvalidid, Bool.or_eq_true, Bool.and_eq_true, validBody_iff, validBody_iff, beq_iff_eq]
  constructor
  · rintro (h | ⟨hlast, hshape⟩)
    · exact Or.inl h
    · obtain ⟨ys, hys⟩ := List.getLast?_eq_some_iff.mp hlast
      refine Or.inr ⟨s.data.dropLast, ?_, hshape⟩
      rw [hys, List.dropLast_concat]
  · rintro (h | ⟨cs2, hcs, hshape⟩)
    · exact Or.inl h
    · refine Or.inr ⟨?_, ?_⟩
      · rw [hcs]
        exact List.getLast?_concat cs2
      · rw [hcs, List.dropLast_concat]
        exact hshape

/-- C6 (counterexample): `"1511.08198\n"` is accepted by `isvalidid` although
it does not consist of digits, a dot, digits and an optional version suffix
with nothing after that up to the end of the string: Python's `$` also matches
just before a newline at the end of the string. -/
theorem isvalidid_trailing_newline_cex :
    isvalidid "1511.08198\n" = true ∧ ¬ specShape ("1511.08198\n").data := by
  constructor
  · rfl
  · intro h
    have hb : validBody ("1511.08198\n").data = true := (validBody_iff _).mpr h
    have hf : validBody ("1511.08198\n").data = false := by rfl
    rw [hf] at hb
    exact Bool.false_ne_true hb

/-- C6 (amended): `isvalidid(id)` is truthy if and only if `id` consists of
one or more digits, a literal dot, one or more digits, optionally a literal
`v` and one or more digits, either at the very end of the string or followed
by exactly one final newline character (the semantics of `$` in `re.match`). -/
theorem isvalidid_shape_characterization (s : String) :
    isvalidid s = true ↔
      (specShape s.data ∨ ∃ cs, s.data = cs ++ ['\n'] ∧ specShape cs) :=
  isvalidid_eq_true_iff s

/-- C7: `strip_version(id)` returns the segment of `id` before the first `v`,
and `id` itself when no `v` occurs; in particular on the two spec examples. -/
theorem strip_version_spec (s : String) :
    ('v' ∉ s.data → strip_version s = s) ∧
    (∀ pre suf : List Char, s.data = pre ++ 'v' :: suf → 'v' ∉ pre →
      strip_version s = ⟨pre⟩) ∧
    strip_version "1511.08198v1" = "1511.08198" ∧
    strip_version "1511.08198" = "1511.08198" := by
  refine ⟨?_, ?_, by rfl, by rfl⟩
  · intro h
    have hall : ∀ c ∈ s.data, (c != 'v') = true := fun c hc =>
      bne_iff_ne.mpr fun hcv => h (hcv ▸ hc)
    rw [strip_version, takeWhile_all hall]
  · intro pre suf hs hnot
    have hall : ∀ x ∈ pre, (x != 'v') = true := fun x hx =>
      bne_iff_ne.mpr fun hxv => hnot (hxv ▸ hx)
    have hvv : ('v' != 'v') = false := by decide
    rw [strip_version, hs, takeWhile_middle hall hvv]

theorem strip_version_spec_witness :
    'v' ∉ ("1511.08198" : String).data ∧ strip_version "1511.08198" = "1511.08198" :=
  ⟨by decide, (strip_version_spec "1511.08198").1 (by decide)⟩

theorem no_v_left {d1 d2 : List Char} (h1 : ∀ c ∈ d1, c.isDigit = true)
    (h2 : ∀ c ∈ d2, c.isDigit = true) :
    ∀ c ∈ d1 ++ '.' :: d2, (c != 'v') = true := by
  intro c hc
  rw [bne_iff_ne]
  intro hcv
  subst hcv
  rcases List.mem_append.mp hc with h3 | h3
  · exact absurd (h1 _ h3) (by decide)
  · rcases List.mem_cons.mp h3 with h4 | h4
    · exact absurd h4 (by decide)
    · exact absurd (h2 _ h4) (by decide)

theorem specShape_strip (cs : List Char) (h : specShape cs) :
    specShape (cs.takeWhile (fun c => c != 'v')) := by
  obtain ⟨d1, d2, hd1, hd2, hcase⟩ := h
  rcases hcase with hcs | ⟨d3, hd3, hcs⟩
  · subst hcs
    rw [takeWhile_all (no_v_left hd1.2 hd2.2)]
    exact ⟨d1, d2, hd1, hd2, Or.inl rfl⟩
  · subst hcs
    have hvv : ('v' != 'v') = false := by decide
    have hassoc : d1 ++ '.' :: (d2 ++ 'v' :: d3) = (d1 ++ '.' :: d2) ++ 'v' :: d3 := by
      simp
    rw [hassoc, takeWhile_middle (no_v_left hd1.2 hd2.2) hvv]
    exact ⟨d1, d2, hd1, hd2, Or.inl rfl⟩

/-- C10: on every accepted identifier, the stripped id has no `v`, is still
accepted, and stripping is idempotent. -/
theorem strip_version_preserves_valid (s : String) (h : isvalidid s = true) :
    'v' ∉ (strip_version s).data ∧ isvalidid (strip_version s) = true ∧
    strip_version (strip_version s) = strip_version s := by
  refine ⟨?_, ?_, ?_⟩
  · intro hv
    have := List.mem_takeWhile_imp (p := fun c => c != 'v') hv
    simp at this
  · rcases (isvalidid_eq_true_iff s).mp h with hsh | ⟨cs2, hcs, hsh⟩
    · exact (isvalidid_eq_true_iff _).mpr (Or.inl (specShape_strip s.data hsh))
    · obtain ⟨d1, d2, hd1, hd2, hcase⟩ := hsh
      rcases hcase with hcs2 | ⟨d3, hd3, hcs2⟩
      · have hall : ∀ c ∈ s.data, (c != 'v') = true := by
          intro c hc
          rw [hcs, hcs2] at hc
          rcases List.mem_append.mp hc with h3 | h3
          · exact no_v_left hd1.2 hd2.2 c h3
          · have hc' : c = '\n' := by simpa using h3
            subst hc'
            decide
        have hid : strip_version s = s := by
          rw [strip_version, takeWhile_all hall]
        rw [hid]
        exact h
      · have hvv : ('v' != 'v') = false := by decide
        have htw : s.data.takeWhile (fun c => c != 'v') = d1 ++ '.' :: d2 := by
          rw [hcs, hcs2]
          have hassoc : (d1 ++ '.' :: (d2 ++ 'v' :: d3)) ++ ['\n'] =
              (d1 ++ '.' :: d2) ++ 'v' :: (d3 ++ ['\n']) := by
            simp
          rw [hassoc, takeWhile_middle (no_v_left hd1.2 hd2.2) hvv]
        apply (isvalidid_eq_true_iff _).mpr
        left
        show specShape (s.data.takeWhile (fun c => c != 'v'))
        rw [htw]
        exact ⟨d1, d2, hd1, hd2, Or.inl rfl⟩
  · have hall : ∀ c ∈ s.data.takeWhile (fun c => c != 'v'), (c != 'v') = true :=
      fun c hc => List.mem_takeWhile_imp (p := fun c => c != 'v') hc
    rw [strip_version, strip_version]
    exact congrArg String.mk (takeWhile_all hall)

theorem strip_version_preserves_valid_witness :
    isvalidid "1511.08198v1" = true ∧
    ('v' ∉ (strip_version "1511.08198v1").data ∧
      isvalidid (strip_version "1511.08198v1") = true ∧
      strip_version (strip_version "1511.08198v1") = strip_version "1511.08198v1") :=
  ⟨rfl, strip_version_preserves_valid "1511.08198v1" rfl⟩
